import Mathlib

/-!
Verification of the core linear-algebra engine of the Tensor-Algebra repository
(`src/src/vector.rs`, `src/src/matrix.rs`, `src/src/arithmetic.rs`,
`src/src/error.rs`).

The Rust library is shallowly embedded:

* `Vector T N` (Rust `Vector<T, N>`, a `[T; N]`) is a function `Fin N → T`;
* `Matrix T N` (Rust `Matrix<T, N>`, a `Vec<Vector<T, N>>` plus a `rows`
  field that every constructor keeps equal to the vector's length) is a
  structure holding a `List (Fin N → T)`, with `rows` defined as the length;
* the closed numeric trait `AllowedNumericTypes` is a record `Ops T` of the
  operations the algorithms use (`zero`, `one`, `+`, `-`, `*`, `/`, `neg`,
  `abs`, `is_zero`, and the `partial_cmp`-derived strict comparison);
* integer instantiations use exact `ℤ` arithmetic (`intOps`); the `f64`
  instantiation (`f64Ops`) models IEEE binary64 numbers as the rational
  values they denote, with every arithmetic result rounded by `fl`,
  round-to-nearest-ties-to-even at 53 significant bits with unbounded
  exponent (exactly IEEE semantics as long as no intermediate overflows or
  becomes subnormal, which holds for every computation examined here);
* fallible Rust functions returning `Result<_, TensorError>` become
  `Except TensorError _`; `swap_rows`, which mutates `&mut self`, returns
  the pair (reported result, final state of the matrix).
-/

set_option allowUnsafeReducibility true in
attribute [semireducible] Rat.add Rat.mul Rat.sub Rat.div Rat.inv Rat.neg Rat.blt Rat.ofScientific

set_option maxRecDepth 40000

namespace TensorLib

/-- Rust `TensorError` (src/src/error.rs), with the same string payloads the
Rust constructors receive. -/
inductive TensorError where
  | DimensionMismatch (expected found operation : String)
  | OutOfBounds (index size : String)
  | DivisionByZero
  | InvalidOperation (msg : String)
  | Other (msg : String)
deriving DecidableEq, Repr

/-- Rust `Vector<T, N>`: a fixed array `[T; N]`. -/
abbrev Vector (T : Type) (N : ℕ) := Fin N → T

/-- Equality of fixed vectors, decided by scanning the index list (this
instance reduces where the `Fintype` pi instance gets stuck on `Eq.rec`). -/
instance instDecEqVector [DecidableEq T] : DecidableEq (Vector T N) := fun a b =>
  decidable_of_iff ((List.finRange N).all fun i => decide (a i = b i))
    ⟨fun h => funext fun i =>
        of_decide_eq_true (List.all_eq_true.mp h i (List.mem_finRange i)),
      fun h => List.all_eq_true.mpr fun i _ => decide_eq_true (congrFun h i)⟩

/-- Rust `Matrix<T, N>`: row-major rows, each of width `N`.  The Rust struct
also stores `rows : usize`; every constructor (`new`, `from_vectors`, and all
arithmetic results) maintains `rows = data.len()`, so `rows` is modelled as
the list length (`Matrix.rows`). -/
structure Matrix (T : Type) (N : ℕ) where
  data : List (Vector T N)

/-- Matrix equality is equality of the row lists (the derived instance casts
along an equality proof and does not reduce on function-valued rows). -/
instance instDecEqMatrix [DecidableEq T] : DecidableEq (Matrix T N) := fun a b =>
  decidable_of_iff (a.data = b.data)
    ⟨fun h => by cases a; cases b; cases h; rfl, fun h => by rw [h]⟩

/-- Equality of `Except` results, reducible for the same reason as
`instDecEqMatrix`. -/
instance instDecEqExcept [DecidableEq E] [DecidableEq A] : DecidableEq (Except E A) :=
  fun a b =>
  match a, b with
  | .error x, .error y =>
      decidable_of_iff (x = y) ⟨fun h => by rw [h], fun h => by injection h⟩
  | .error _, .ok _ => isFalse nofun
  | .ok _, .error _ => isFalse nofun
  | .ok x, .ok y =>
      decidable_of_iff (x = y) ⟨fun h => by rw [h], fun h => by injection h⟩

/-- `self.rows`, maintained equal to `self.data.len()` by every constructor. -/
def Matrix.rows (m : Matrix T N) : ℕ := m.data.length

/-- Row `i` of a matrix (`self.data[i]`); in-bounds wherever the Rust code
indexes (Rust would panic otherwise), so the default is never reached in the
modelled executions. -/
def mrow [Inhabited T] (m : Matrix T N) (i : ℕ) : Vector T N :=
  m.data.getD i (fun _ => default)

/-- Element `self[(i, j)]` (`self.data[i].data[j]`). -/
def mget [Inhabited T] (m : Matrix T N) (i j : ℕ) : T :=
  if h : j < N then mrow m i ⟨j, h⟩ else default

/-- Element assignment `self[(i, j)] = v`. -/
def mset [Inhabited T] (m : Matrix T N) (i j : ℕ) (v : T) : Matrix T N :=
  if h : j < N then ⟨m.data.set i (Function.update (mrow m i) ⟨j, h⟩ v)⟩ else m

/-- The operations the Rust trait `AllowedNumericTypes` (together with the
`Add/Sub/Mul/Div/Neg` bounds the matrix algorithms put on `T`) provides:
`zero()`, `one()`, the four arithmetic operators, negation, `abs()`,
`is_zero()`, and the strict order obtained from `partial_cmp` (total on the
NaN-free values considered here). -/
structure Ops (T : Type) where
  zero : T
  one : T
  add : T → T → T
  sub : T → T → T
  mul : T → T → T
  div : T → T → T
  neg : T → T
  abs : T → T
  isZero : T → Bool
  ltb : T → T → Bool

/-- The integer instantiations (`i32`/`i64`/`u32`/`u64`) with mathematical
integers: `+`, `-`, `*` are exact, and division is `Int.tdiv`, which
truncates toward zero exactly as Rust's integer `/` does
(`-7 / 2 = -3`, `-7 / -2 = 3`). -/
def intOps : Ops ℤ where
  zero := 0
  one := 1
  add := (· + ·)
  sub := (· - ·)
  mul := (· * ·)
  div := Int.tdiv
  neg := (- ·)
  abs := fun a => |a|
  isZero := fun a => decide (a = 0)
  ltb := fun a b => decide (a < b)

/-! ### The binary64 value model

`f64` values are modelled as the rational numbers they denote.  `fl` is IEEE
round-to-nearest, ties-to-even, at 53 significant bits, with an unbounded
exponent range: on inputs whose rounded value lies in the binary64 normal
range (as in every computation below) it coincides exactly with IEEE binary64
rounding.  `f64Ops` applies `fl` to each arithmetic result, which is exactly
how IEEE `+ - * /` behave on the values the operands denote; negation, `abs`,
comparisons and the `== 0.0` test are exact in IEEE and are modelled exactly. -/

/-- `2 ^ e` as a rational, for an integer exponent. -/
def pow2 : ℤ → ℚ
  | .ofNat n => 2 ^ n
  | .negSucc n => 1 / 2 ^ (n + 1)

/-- Fuel-bounded search for `⌊log₂ q⌋` of `q ≥ 1` (the fuel, 2200, exceeds
any binary64 exponent by a wide margin). -/
def expUp : ℕ → ℚ → ℤ
  | 0, _ => 0
  | f + 1, q => if q < 2 then 0 else expUp f (q / 2) + 1

/-- Fuel-bounded search for `⌊log₂ q⌋` of `0 < q < 1`. -/
def expDown : ℕ → ℚ → ℤ
  | 0, _ => 0
  | f + 1, q => if 1 ≤ q then 0 else expDown f (2 * q) - 1

/-- `⌊log₂ q⌋` for positive `q` in the binary64 range. -/
def floorLog2 (q : ℚ) : ℤ :=
  if 1 ≤ q then expUp 2200 q else expDown 2200 q

/-- `⌊x⌋` computed on the rational representation. -/
def ratFloor (x : ℚ) : ℤ := x.num.fdiv x.den

/-- Round a rational to the nearest integer, ties to the even integer. -/
def rnde (x : ℚ) : ℤ :=
  let n := ratFloor x
  let r := x - n
  if r < 1 / 2 then n
  else if 1 / 2 < r then n + 1
  else if n % 2 = 0 then n else n + 1

/-- Round to nearest, ties to even, at 53 significant bits: the value an IEEE
binary64 operation returns for an exact result `q` (normal range, no
overflow). -/
def fl (q : ℚ) : ℚ :=
  if q = 0 then 0
  else
    let a := |q|
    let e := floorLog2 a - 52
    let m := rnde (a / pow2 e)
    let r := (m : ℚ) * pow2 e
    if q < 0 then -r else r

/-- The `f64` instantiation: every `+ - * /` result is rounded by `fl`;
negation, `abs`, `== 0.0` and `<` are exact on the denoted values. -/
def f64Ops : Ops ℚ where
  zero := 0
  one := 1
  add := fun a b => fl (a + b)
  sub := fun a b => fl (a - b)
  mul := fun a b => fl (a * b)
  div := fun a b => fl (a / b)
  neg := (- ·)
  abs := fun a => |a|
  isZero := fun a => decide (a = 0)
  ltb := fun a b => decide (a < b)

/-! ### src/src/arithmetic.rs : matrix multiplication with Kahan summation -/

/-- One iteration of the Kahan loop in `mat_mul_impl` (state `(sum, c)`,
incoming `product`):
`let y = product - c; let t = sum + y; c = (t - sum) - y; sum = t;`. -/
def kahanStep (P : Ops T) (sc : T × T) (product : T) : T × T :=
  let y := P.sub product sc.2
  let t := P.add sc.1 y
  (t, P.sub (P.sub t sc.1) y)

/-- The `k`-loop of `mat_mul_impl`: Kahan summation of the listed terms
starting from `sum = T::zero(), c = T::zero()`. -/
def kahanSum (P : Ops T) (l : List T) : T :=
  (l.foldl (kahanStep P) (P.zero, P.zero)).1

/-- `mat_mul_impl` (src/src/arithmetic.rs, lines 25–58): checks
`rhs.shape().0 != N`, then fills each cell `(i, j)` of an
`lhs.rows × M` result with the Kahan sum of `lhs[i][k] * rhs[k][j]`,
`k = 0..N`. -/
def mat_mul_impl [Inhabited T] (P : Ops T) (lhs : Matrix T N) (rhs : Matrix T M) :
    Except TensorError (Matrix T M) :=
  if rhs.rows ≠ N then
    .error (.DimensionMismatch s!"{N}x{M}" s!"{rhs.rows}x{M}" "Matrix multiplication")
  else
    .ok ⟨(List.range lhs.rows).map fun i => fun j : Fin M =>
      kahanSum P ((List.finRange N).map fun k => P.mul (mrow lhs i k) (mrow rhs k j))⟩

/-! ### src/src/vector.rs -/

/-- `impl Add for Vector` : elementwise addition (no failure mode, the
lengths agree structurally). -/
def Vector.add [Add T] (a b : Vector T N) : Vector T N :=
  fun i => a i + b i

/-- The loop of `impl Div for Vector`: walks the positions in order over a
zero-initialised result; at the first position whose divisor is zero it
returns `Err(DivisionByZero)` with no partial result, otherwise it stores
the quotient and continues. -/
def vecDivGo (P : Ops T) (a b : Vector T N) :
    List (Fin N) → Vector T N → Except TensorError (Vector T N)
  | [], acc => .ok acc
  | i :: is, acc =>
      if P.isZero (b i) then .error .DivisionByZero
      else vecDivGo P a b is (Function.update acc i (P.div (a i) (b i)))

/-- `impl Div for Vector` (src/src/vector.rs, lines 97–110). -/
def Vector.div [Inhabited T] (P : Ops T) (a b : Vector T N) :
    Except TensorError (Vector T N) :=
  vecDivGo P a b (List.finRange N) (fun _ => default)

/-- `Vector::dot` (src/src/vector.rs, lines 132–138): plain left fold
`sum = sum + self[i] * other[i]` from `T::zero()` (not Kahan-compensated). -/
def Vector.dot (P : Ops T) (a b : Vector T N) : T :=
  (List.finRange N).foldl (fun s i => P.add s (P.mul (a i) (b i))) P.zero

/-- Rust `Iterator::max_by` on a non-empty iterator `acc :: l`, with a
comparator looking only at the second component: the fold keeps the
accumulator exactly when it compares strictly greater, so among equal maxima
the *last* element wins. -/
def maxByGo [LinearOrder T] (l : List (α × T)) (acc : α × T) : α × T :=
  l.foldl (fun a y => if y.2 < a.2 then a else y) acc

/-- `Vector::argmax` (src/src/vector.rs, lines 189–195):
`iter().enumerate().max_by(val)`, `unwrap_or(0)` on the empty vector. -/
def Vector.argmax [LinearOrder T] (v : Vector T N) : ℕ :=
  match (List.finRange N).map (fun i => (i.val, v i)) with
  | [] => 0
  | x :: xs => (maxByGo xs x).1

/-- The inner `max_by` of `Matrix::argmax` on one row:
`row.iter().copied().enumerate().max_by(val).unwrap_or((0, T::default()))`. -/
def rowArgmax [LinearOrder T] [Inhabited T] (r : Vector T N) : ℕ × T :=
  match (List.finRange N).map (fun j => (j.val, r j)) with
  | [] => (0, default)
  | x :: xs => maxByGo xs x

/-- `Matrix::argmax` (src/src/matrix.rs, lines 134–150): each row is mapped
to `(i, j, val)` by the inner `max_by`, then an outer `max_by` on `val`
selects among the rows; `unwrap_or((0, 0))` on the empty matrix. -/
def Matrix.argmax [LinearOrder T] [Inhabited T] (m : Matrix T N) : ℕ × ℕ :=
  match (List.range m.rows).map
      (fun i => ((i, (rowArgmax (mrow m i)).1), (rowArgmax (mrow m i)).2)) with
  | [] => (0, 0)
  | x :: xs => (maxByGo xs x).1

/-! ### src/src/matrix.rs -/

/-- `impl Add for Matrix` (src/src/matrix.rs, lines 78–100): row counts must
agree, then rows add pairwise. -/
def Matrix.add [Inhabited T] [Add T] (a b : Matrix T N) :
    Except TensorError (Matrix T N) :=
  if a.rows ≠ b.rows then
    .error (.DimensionMismatch s!"{a.rows}x{N}" s!"{b.rows}x{N}" "Matrix addition")
  else
    .ok ⟨(List.range a.rows).map fun i => Vector.add (mrow a i) (mrow b i)⟩

/-- `Matrix::mat_vec_mul` (src/src/matrix.rs, lines 183–189): pushes
`self.data[i].dot(vec)` for every row; the `Result` return type never takes
the error branch. -/
def mat_vec_mul [Inhabited T] (P : Ops T) (m : Matrix T N) (v : Vector T N) :
    Except TensorError (List T) :=
  .ok ((List.range m.rows).map fun i => Vector.dot P (mrow m i) v)

/-- `Matrix::transpose::<M>` (src/src/matrix.rs, lines 239–261): rejects
`self.rows != M`, otherwise builds `N` rows; row `i` starts as
`[T::default(); M]` and positions `j < self.rows` receive `self.data[j][i]`. -/
def transpose [Inhabited T] (M : ℕ) (m : Matrix T N) :
    Except TensorError (Matrix T M) :=
  if m.rows ≠ M then
    .error (.DimensionMismatch s!"Any x {M}" s!"{m.rows}x{N}" "Transpose")
  else
    .ok ⟨(List.finRange N).map fun i => fun j : Fin M =>
      if (j : ℕ) < m.rows then mrow m j i else default⟩

/-- `Matrix::swap_rows` (src/src/matrix.rs, lines 263–283): bound checks on
`row1` then `row2` (each reported with the offending index and the row
count), then `self.data.swap(row1, row2)`.  The pair is
(returned `Result`, final state of `self`): on either error the matrix is
returned untouched, exactly as the Rust method returns before mutating. -/
def swap_rows [Inhabited T] (m : Matrix T N) (row1 row2 : ℕ) :
    Option TensorError × Matrix T N :=
  if row1 ≥ m.rows then
    (some (.OutOfBounds (toString row1) (toString m.rows)), m)
  else if row2 ≥ m.rows then
    (some (.OutOfBounds (toString row2) (toString m.rows)), m)
  else
    (none, ⟨(m.data.set row1 (mrow m row2)).set row2 (mrow m row1)⟩)

/-- The pivot search of `Matrix::determinant` at step `k`:
`max_row = k; for i in (k+1)..rows { if |lu[(i,k)]| > |lu[(max_row,k)]| { max_row = i } }`. -/
def detPivotRow [Inhabited T] (P : Ops T) (lu : Matrix T N) (k : ℕ) : ℕ :=
  (List.range' (k + 1) (lu.rows - (k + 1))).foldl
    (fun mr i => if P.ltb (P.abs (mget lu mr k)) (P.abs (mget lu i k)) then i else mr) k

/-- The elimination of `Matrix::determinant` at step `k` below pivot row `k`:
for `i in (k+1)..rows`, `factor = lu[(i,k)] / pivot` and for
`j in (k+1)..cols`, `lu[(i,j)] = lu[(i,j)] - factor * lu[(k,j)]`. -/
def detEliminate [Inhabited T] (P : Ops T) (k : ℕ) (pivot : T) (lu : Matrix T N) :
    Matrix T N :=
  (List.range' (k + 1) (lu.rows - (k + 1))).foldl
    (fun lu' i =>
      let factor := P.div (mget lu' i k) pivot
      (List.range' (k + 1) (N - (k + 1))).foldl
        (fun lu'' j => mset lu'' i j (P.sub (mget lu'' i j) (P.mul factor (mget lu'' k j))))
        lu')
    lu

/-- One `k` iteration of `Matrix::determinant`: partial pivoting (a swap
negates the running determinant), then either the early `return Ok(T::zero())`
on a zero pivot (`.inr`), or the determinant update and elimination (`.inl`). -/
def detStep [Inhabited T] (P : Ops T) (st : Matrix T N × T) (k : ℕ) :
    (Matrix T N × T) ⊕ T :=
  let lu := st.1
  let max_row := detPivotRow P lu k
  let lu1 := if max_row ≠ k then (swap_rows lu k max_row).2 else lu
  let det1 := if max_row ≠ k then P.mul st.2 (P.neg P.one) else st.2
  let pivot := mget lu1 k k
  if P.isZero pivot then .inr P.zero
  else .inl (detEliminate P k pivot lu1, P.mul det1 pivot)

/-- The `k`-loop of `Matrix::determinant`, with the early return threaded
through: `.inr` short-circuits with the returned value. -/
def detGo [Inhabited T] (P : Ops T) : List ℕ → Matrix T N × T → T
  | [], st => st.2
  | k :: ks, st =>
      match detStep P st k with
      | .inl st' => detGo P ks st'
      | .inr v => v

/-- `Matrix::determinant` (src/src/matrix.rs, lines 191–237): square check,
then Gaussian elimination with partial pivoting on a working copy,
accumulating the product of pivots and a sign per row swap. -/
def determinant [Inhabited T] (P : Ops T) (m : Matrix T N) : Except TensorError T :=
  if m.rows ≠ N then
    .error (.DimensionMismatch "Square Matrix" s!"{m.rows}x{N} matrix" "Determinant")
  else
    .ok (detGo P (List.range m.rows) (m, P.one))

/-! ### Helper lemmas -/

theorem mrow_map_range [Inhabited T] (f : ℕ → Vector T N) (n i : ℕ) (h : i < n) :
    mrow (⟨(List.range n).map f⟩ : Matrix T N) i = f i := by
  simp [mrow, List.getD_eq_getElem?_getD, List.getElem?_range, h]

theorem mget_fin [Inhabited T] (m : Matrix T N) (i : ℕ) (j : Fin N) :
    mget m i (j : ℕ) = mrow m i j := by
  simp [mget]

theorem mget_lt [Inhabited T] (m : Matrix T N) (i j : ℕ) (h : j < N) :
    mget m i j = mrow m i ⟨j, h⟩ := dif_pos h

theorem rows_map_range [Inhabited T] (f : ℕ → Vector T N) (n : ℕ) :
    (⟨(List.range n).map f⟩ : Matrix T N).rows = n := by
  simp [Matrix.rows]

/-- Over exact arithmetic one Kahan step adds the incoming term and leaves a
zero compensation. -/
theorem kahanStep_int (s c p : ℤ) :
    kahanStep intOps (s, c) p = (s + (p - c), 0) := by
  simp [kahanStep, intOps]

/-- Over exact arithmetic the Kahan loop computes the plain sum. -/
theorem kahan_foldl_int (l : List ℤ) (s : ℤ) :
    l.foldl (kahanStep intOps) (s, 0) = (s + l.sum, 0) := by
  induction l generalizing s with
  | nil => simp
  | cons p t ih => simp [kahanStep_int, ih]; ring

theorem kahanSum_int (l : List ℤ) : kahanSum intOps l = l.sum := by
  show (l.foldl (kahanStep intOps) ((0 : ℤ), (0 : ℤ))).1 = l.sum
  rw [kahan_foldl_int, zero_add]

theorem mat_mul_impl_ok [Inhabited T] (P : Ops T) (lhs : Matrix T N) (rhs : Matrix T M)
    (h : rhs.rows = N) :
    mat_mul_impl P lhs rhs =
      .ok ⟨(List.range lhs.rows).map fun i => fun j : Fin M =>
        kahanSum P ((List.finRange N).map fun k => P.mul (mrow lhs i k) (mrow rhs k j))⟩ := by
  simp [mat_mul_impl, h]

/-! ### C1 -/

/-- C1: for integer matrices `A : R×N` and `B : N×M`, `mat_mul_impl` returns
`Ok` of an `R×M` matrix whose cell `(i, j)` is the naive triple-loop sum
`∑ k, A[i][k] * B[k][j]` (the Kahan compensation vanishes identically in
exact arithmetic); in particular
`[[1,2,3],[4,5,6]] * [[7,8],[9,10],[11,12]] = [[58,64],[139,154]]`. -/
theorem mat_mul_int_is_naive_sum :
    (∀ (N M : ℕ) (A : Matrix ℤ N) (B : Matrix ℤ M), B.rows = N →
      ∃ C : Matrix ℤ M, mat_mul_impl intOps A B = .ok C ∧ C.rows = A.rows ∧
        ∀ i j : ℕ, i < A.rows → ∀ hj : j < M,
          mget C i j = ∑ k : Fin N, mget A i (k : ℕ) * mget B (k : ℕ) j) ∧
    mat_mul_impl intOps (⟨[![1,2,3],![4,5,6]]⟩ : Matrix ℤ 3)
        (⟨[![7,8],![9,10],![11,12]]⟩ : Matrix ℤ 2) =
      .ok ⟨[![58,64],![139,154]]⟩ := by
  constructor
  · intro N M A B hB
    refine ⟨_, mat_mul_impl_ok intOps A B hB, rows_map_range _ _, ?_⟩
    intro i j hi hj
    rw [mget_lt _ i j hj, mrow_map_range _ A.rows i hi]
    simp only [kahanSum_int]
    rw [← Fin.sum_univ_def]
    refine Finset.sum_congr rfl fun k _ => ?_
    rw [mget_fin, mget_lt _ _ _ hj]
    rfl
  · decide

/-- C1 witness: the universal half applied to the spec's concrete pair. -/
theorem mat_mul_int_is_naive_sum_witness :
    ∃ C : Matrix ℤ 2, mat_mul_impl intOps (⟨[![1,2,3],![4,5,6]]⟩ : Matrix ℤ 3)
        (⟨[![7,8],![9,10],![11,12]]⟩ : Matrix ℤ 2) = .ok C ∧
      C.rows = (⟨[![1,2,3],![4,5,6]]⟩ : Matrix ℤ 3).rows ∧
      ∀ i j : ℕ, i < (⟨[![1,2,3],![4,5,6]]⟩ : Matrix ℤ 3).rows → ∀ hj : j < 2,
        mget C i j = ∑ k : Fin 3,
          mget (⟨[![1,2,3],![4,5,6]]⟩ : Matrix ℤ 3) i (k : ℕ) *
          mget (⟨[![7,8],![9,10],![11,12]]⟩ : Matrix ℤ 2) (k : ℕ) j :=
  mat_mul_int_is_naive_sum.1 3 2 _ _ (by decide)

/-! ### C8 -/

theorem matrix_add_ok [Inhabited T] [Add T] (a b : Matrix T N) (h : a.rows = b.rows) :
    Matrix.add a b = .ok ⟨(List.range a.rows).map fun i => Vector.add (mrow a i) (mrow b i)⟩ := by
  simp [Matrix.add, h]

/-- C8: for equal-shape integer matrices, `A+B` and `B+A` both succeed with
the same result, and `(A+B)+C = A+(B+C)`; matrices with different row counts
fail with `DimensionMismatch`. -/
theorem matrix_add_comm_assoc :
    (∀ (N : ℕ) (A B C : Matrix ℤ N), A.rows = B.rows → B.rows = C.rows →
      ∃ AB BC, Matrix.add A B = .ok AB ∧ Matrix.add B A = .ok AB ∧
        Matrix.add B C = .ok BC ∧ Matrix.add AB C = Matrix.add A BC) ∧
    (∀ (N : ℕ) (A B : Matrix ℤ N), A.rows ≠ B.rows →
      Matrix.add A B =
        .error (.DimensionMismatch s!"{A.rows}x{N}" s!"{B.rows}x{N}" "Matrix addition")) := by
  constructor
  · intro N A B C hAB hBC
    refine ⟨_, _, matrix_add_ok A B hAB, ?_, matrix_add_ok B C hBC, ?_⟩
    · rw [matrix_add_ok B A hAB.symm]
      congr 1
      rw [Matrix.mk.injEq, ← hAB]
      exact List.map_congr_left fun i _ => funext fun j => add_comm _ _
    · have hABrows : (⟨(List.range A.rows).map fun i =>
          Vector.add (mrow A i) (mrow B i)⟩ : Matrix ℤ N).rows = A.rows :=
        rows_map_range _ _
      have hBCrows : (⟨(List.range B.rows).map fun i =>
          Vector.add (mrow B i) (mrow C i)⟩ : Matrix ℤ N).rows = B.rows :=
        rows_map_range _ _
      rw [matrix_add_ok _ C (by rw [hABrows, hAB, hBC]),
        matrix_add_ok A _ (by rw [hBCrows, hAB])]
      congr 1
      rw [Matrix.mk.injEq, hABrows]
      refine List.map_congr_left fun i hi => funext fun j => ?_
      have hiA : i < A.rows := List.mem_range.mp hi
      have h1 := mrow_map_range (fun i => Vector.add (mrow A i) (mrow B i)) A.rows i hiA
      have h2 := mrow_map_range (fun i => Vector.add (mrow B i) (mrow C i)) B.rows i
        (hAB ▸ hiA)
      simp only [Vector.add, h1, h2]
      exact add_assoc _ _ _
  · intro N A B h
    simp [Matrix.add, h]

/-- C8 witness: concrete equal-shape `1×2` integer matrices. -/
theorem matrix_add_comm_assoc_witness :
    ∃ AB BC, Matrix.add (⟨[![1,2]]⟩ : Matrix ℤ 2) ⟨[![3,4]]⟩ = .ok AB ∧
      Matrix.add (⟨[![3,4]]⟩ : Matrix ℤ 2) ⟨[![1,2]]⟩ = .ok AB ∧
      Matrix.add (⟨[![3,4]]⟩ : Matrix ℤ 2) ⟨[![5,6]]⟩ = .ok BC ∧
      Matrix.add AB (⟨[![5,6]]⟩ : Matrix ℤ 2) = Matrix.add ⟨[![1,2]]⟩ BC :=
  matrix_add_comm_assoc.1 2 ⟨[![1,2]]⟩ ⟨[![3,4]]⟩ ⟨[![5,6]]⟩ (by decide) (by decide)

/-! ### C10 -/

theorem list_foldl_add (f : α → ℤ) (l : List α) (s : ℤ) :
    l.foldl (fun acc x => acc + f x) s = s + (l.map f).sum := by
  induction l generalizing s with
  | nil => simp
  | cons x t ih => simp [ih, add_assoc]

theorem dot_int (a b : Vector ℤ N) :
    Vector.dot intOps a b = ∑ k : Fin N, a k * b k := by
  show (List.finRange N).foldl (fun s i => s + a i * b i) 0 = _
  rw [list_foldl_add (fun i => a i * b i), zero_add, ← Fin.sum_univ_def]

theorem getD_map_range (f : ℕ → α) (d : α) (h : i < n) :
    (((List.range n).map f).getD i d) = f i := by
  simp [List.getD_eq_getElem?_getD, List.getElem?_range, h]

/-- C10: `mat_vec_mul` never takes the error branch its return type allows:
for an `R×N` matrix and a length-`N` vector it always returns `Ok` of the
length-`R` list whose entry `i` is the dot product of row `i` with `v`. -/
theorem mat_vec_mul_never_fails :
    ∀ (N : ℕ) (m : Matrix ℤ N) (v : Vector ℤ N),
      ∃ l : List ℤ, mat_vec_mul intOps m v = .ok l ∧ l.length = m.rows ∧
        ∀ i : ℕ, i < m.rows → l.getD i 0 = ∑ k : Fin N, mget m i (k : ℕ) * v k := by
  intro N m v
  refine ⟨_, rfl, by simp [Matrix.rows], ?_⟩
  intro i hi
  rw [getD_map_range _ _ hi, dot_int]
  exact Finset.sum_congr rfl fun k _ => by rw [mget_fin]

/-- C10 witness: a concrete `2×2` matrix–vector product. -/
theorem mat_vec_mul_never_fails_witness :
    ∃ l : List ℤ, mat_vec_mul intOps (⟨[![1,2],![3,4]]⟩ : Matrix ℤ 2) ![5,6] = .ok l ∧
      l.length = (⟨[![1,2],![3,4]]⟩ : Matrix ℤ 2).rows ∧
      ∀ i : ℕ, i < (⟨[![1,2],![3,4]]⟩ : Matrix ℤ 2).rows →
        l.getD i 0 = ∑ k : Fin 2, mget (⟨[![1,2],![3,4]]⟩ : Matrix ℤ 2) i (k : ℕ) * ![5,6] k :=
  mat_vec_mul_never_fails 2 ⟨[![1,2],![3,4]]⟩ ![5,6]

/-! ### C5 -/

theorem vecDivGo_error (P : Ops T) [Inhabited T] (a b : Vector T N) :
    ∀ (l : List (Fin N)) (acc : Vector T N), (∃ i ∈ l, P.isZero (b i) = true) →
      vecDivGo P a b l acc = .error .DivisionByZero := by
  intro l
  induction l with
  | nil => intro acc h; simp at h
  | cons x t ih =>
      intro acc h
      by_cases hxz : P.isZero (b x)
      · simp [vecDivGo, hxz]
      · rcases h with ⟨i, hi, hz⟩
        rcases List.mem_cons.mp hi with rfl | hit
        · exact absurd hz hxz
        · simp only [vecDivGo, if_neg hxz]
          exact ih _ ⟨i, hit, hz⟩

theorem vecDivGo_ok (P : Ops T) [Inhabited T] (a b : Vector T N) :
    ∀ (l : List (Fin N)) (acc : Vector T N), (∀ i ∈ l, P.isZero (b i) = false) →
      vecDivGo P a b l acc =
        .ok (l.foldl (fun acc i => Function.update acc i (P.div (a i) (b i))) acc) := by
  intro l
  induction l with
  | nil => intro acc _; rfl
  | cons x t ih =>
      intro acc h
      have hx : ¬ P.isZero (b x) = true := by simp [h x (List.mem_cons_self x t)]
      simp only [vecDivGo, if_neg hx, List.foldl_cons]
      exact ih _ fun i hi => h i (List.mem_cons_of_mem x hi)

theorem foldl_update_eval {I T : Type} [DecidableEq I] (f : I → T) (l : List I) (acc : I → T) (j : I) :
    (l.foldl (fun acc i => Function.update acc i (f i)) acc) j =
      if j ∈ l then f j else acc j := by
  induction l generalizing acc with
  | nil => simp
  | cons x t ih =>
      simp only [List.foldl_cons, ih]
      by_cases hj : j ∈ t
      · simp [hj]
      · by_cases hx : j = x
        · subst hx; simp [hj]
        · simp [hj, hx, Function.update_noteq hx]

/-- C5: elementwise vector division over the integers fails with
`DivisionByZero` (and returns no partial result) exactly when some divisor
element is zero; otherwise it returns `Ok` of the elementwise quotients
(truncated toward zero, as Rust's integer `/`). -/
theorem vector_div_zero_iff :
    ∀ (N : ℕ) (a b : Vector ℤ N),
      ((∃ i, b i = 0) → Vector.div intOps a b = .error .DivisionByZero) ∧
      ((∀ i, b i ≠ 0) → Vector.div intOps a b = .ok fun i => (a i).tdiv (b i)) := by
  intro N a b
  constructor
  · rintro ⟨i, hi⟩
    exact vecDivGo_error intOps a b _ _ ⟨i, List.mem_finRange i, by simp [intOps, hi]⟩
  · intro h
    rw [Vector.div, vecDivGo_ok intOps a b _ _ fun i _ => by simp [intOps, h i]]
    congr 1
    funext j
    rw [foldl_update_eval]
    simp [List.mem_finRange]
    rfl

/-- C5 witness: a concrete division with nowhere-zero divisor and a negative
dividend, whose quotient truncates toward zero (`-7 / 2 = -3`). -/
theorem vector_div_zero_iff_witness :
    Vector.div intOps (![-7,9] : Vector ℤ 2) ![2,3] =
      .ok fun i => ((![-7,9] : Vector ℤ 2) i).tdiv (![2,3] i) :=
  (vector_div_zero_iff 2 ![-7,9] ![2,3]).2 (by decide)

/-! ### C6 -/

theorem getD_set_self (l : List α) (i : ℕ) (a d : α) (h : i < l.length) :
    (l.set i a).getD i d = a := by
  simp [List.getD_eq_getElem?_getD, List.getElem?_set_self h]

theorem getD_set_ne (l : List α) {i j : ℕ} (hij : i ≠ j) (a d : α) :
    (l.set i a).getD j d = l.getD j d := by
  simp [List.getD_eq_getElem?_getD, List.getElem?_set_ne hij]

/-- Effect of `Vec::swap(r1, r2)` on the row list, indexwise. -/
theorem swap_list_getD (l : List α) (r1 r2 : ℕ) (d : α)
    (h1 : r1 < l.length) (h2 : r2 < l.length) :
    ((l.set r1 (l.getD r2 d)).set r2 (l.getD r1 d)).getD r1 d = l.getD r2 d ∧
    ((l.set r1 (l.getD r2 d)).set r2 (l.getD r1 d)).getD r2 d = l.getD r1 d ∧
    ∀ i, i ≠ r1 → i ≠ r2 →
      ((l.set r1 (l.getD r2 d)).set r2 (l.getD r1 d)).getD i d = l.getD i d := by
  have h2' : r2 < (l.set r1 (l.getD r2 d)).length := by simpa using h2
  refine ⟨?_, getD_set_self _ _ _ _ h2', ?_⟩
  · by_cases hr : r2 = r1
    · subst hr
      rw [getD_set_self _ _ _ _ h2']
    · rw [getD_set_ne _ hr, getD_set_self _ _ _ _ h1]
  · intro i hi1 hi2
    rw [getD_set_ne _ (Ne.symm hi2), getD_set_ne _ (Ne.symm hi1)]

/-- C6: `swap_rows` with both indices in bounds reports `Ok` and exchanges
exactly rows `r1` and `r2`; an out-of-bounds `r1`, or else an out-of-bounds
`r2`, reports `OutOfBounds` carrying that index and the row count, with the
matrix returned completely unmodified. -/
theorem swap_rows_exchanges_or_rejects (T : Type) [Inhabited T] (N : ℕ)
    (m : Matrix T N) (r1 r2 : ℕ) :
    (r1 < m.rows → r2 < m.rows →
      (swap_rows m r1 r2).1 = none ∧
      (swap_rows m r1 r2).2.rows = m.rows ∧
      mrow (swap_rows m r1 r2).2 r1 = mrow m r2 ∧
      mrow (swap_rows m r1 r2).2 r2 = mrow m r1 ∧
      (∀ i, i ≠ r1 → i ≠ r2 → mrow (swap_rows m r1 r2).2 i = mrow m i)) ∧
    (m.rows ≤ r1 →
      swap_rows m r1 r2 = (some (.OutOfBounds (toString r1) (toString m.rows)), m)) ∧
    (r1 < m.rows → m.rows ≤ r2 →
      swap_rows m r1 r2 = (some (.OutOfBounds (toString r2) (toString m.rows)), m)) := by
  refine ⟨?_, ?_, ?_⟩
  · intro h1 h2
    have hg1 : ¬ r1 ≥ m.rows := not_le.mpr h1
    have hg2 : ¬ r2 ≥ m.rows := not_le.mpr h2
    have e : swap_rows m r1 r2 =
        (none, ⟨(m.data.set r1 (mrow m r2)).set r2 (mrow m r1)⟩) := by
      simp only [swap_rows, if_neg hg1, if_neg hg2]
    rw [e]
    have key := swap_list_getD m.data r1 r2 (fun _ => default) h1 h2
    exact ⟨rfl, by simp [Matrix.rows], key.1, key.2.1, fun i hi1 hi2 => key.2.2 i hi1 hi2⟩
  · intro h
    simp [swap_rows, h]
  · intro h1 h2
    have hg1 : ¬ r1 ≥ m.rows := not_le.mpr h1
    simp [swap_rows, if_neg hg1, h2]

/-- C6 witness: swapping rows 0 and 2 of a 3-row matrix. -/
theorem swap_rows_exchanges_or_rejects_witness :
    (swap_rows (⟨[![1,2],![3,4],![5,6]]⟩ : Matrix ℤ 2) 0 2).1 = none ∧
    (swap_rows (⟨[![1,2],![3,4],![5,6]]⟩ : Matrix ℤ 2) 0 2).2.rows =
      (⟨[![1,2],![3,4],![5,6]]⟩ : Matrix ℤ 2).rows ∧
    mrow (swap_rows (⟨[![1,2],![3,4],![5,6]]⟩ : Matrix ℤ 2) 0 2).2 0 =
      mrow (⟨[![1,2],![3,4],![5,6]]⟩ : Matrix ℤ 2) 2 ∧
    mrow (swap_rows (⟨[![1,2],![3,4],![5,6]]⟩ : Matrix ℤ 2) 0 2).2 2 =
      mrow (⟨[![1,2],![3,4],![5,6]]⟩ : Matrix ℤ 2) 0 ∧
    (∀ i, i ≠ 0 → i ≠ 2 → mrow (swap_rows (⟨[![1,2],![3,4],![5,6]]⟩ : Matrix ℤ 2) 0 2).2 i =
      mrow (⟨[![1,2],![3,4],![5,6]]⟩ : Matrix ℤ 2) i) :=
  (swap_rows_exchanges_or_rejects ℤ 2 ⟨[![1,2],![3,4],![5,6]]⟩ 0 2).1 (by decide) (by decide)

/-! ### C3 and C7 : transpose -/

theorem transpose_ok [Inhabited T] (M : ℕ) (m : Matrix T N) (h : m.rows = M) :
    transpose M m = .ok ⟨(List.finRange N).map fun i => fun j : Fin M =>
      if (j : ℕ) < m.rows then mrow m j i else default⟩ := by
  simp [transpose, h]

theorem mrow_map_finRange [Inhabited T] (f : Fin N → Vector T M) (i : Fin N) :
    mrow (⟨(List.finRange N).map f⟩ : Matrix T M) i = f i := by
  have : ((List.finRange N).map f).getD (i : ℕ) (fun _ => default) = f i := by
    rw [List.getD_eq_getElem ((List.finRange N).map f) _ (by simpa using i.isLt)]
    simp
  simpa [mrow] using this

/-- Equal matrices have equal row counts and equal rows at every in-bounds
index; the converse, used to prove matrices equal. -/
theorem matrix_ext_mrow [Inhabited T] (a b : Matrix T N) (hlen : a.rows = b.rows)
    (hrows : ∀ i, i < a.rows → mrow a i = mrow b i) : a = b := by
  cases a with | mk la =>
  cases b with | mk lb =>
  refine congrArg Matrix.mk (List.ext_getElem hlen ?_)
  intro i hi1 hi2
  have hr := hrows i hi1
  rwa [show mrow ⟨la⟩ i = la[i] from List.getD_eq_getElem la _ hi1,
    show mrow ⟨lb⟩ i = lb[i] from List.getD_eq_getElem lb _ hi2] at hr

/-- A successful transpose has `N` rows, and entry `(i, j)` of the result is
entry `(j, i)` of the source. -/
theorem transpose_data_entry [Inhabited T] {M : ℕ} (m : Matrix T N) (h : m.rows = M)
    (t : Matrix T M) (hmt : transpose M m = .ok t) :
    t.rows = N ∧ ∀ (i : Fin N) (j : Fin M), mrow t i j = mrow m j i := by
  rw [transpose_ok M m h] at hmt
  injection hmt with hmt
  subst hmt
  refine ⟨by simp [Matrix.rows], ?_⟩
  intro i j
  rw [mrow_map_finRange]
  show (if (j : ℕ) < m.rows then mrow m j i else default) = mrow m j i
  rw [if_pos (h ▸ j.isLt)]

/-- C3 counterexample: transposing the `1×2` integer matrix `[[1,2]]` with
target parameter `M = 1` succeeds (the code compares `M` against the row
count, which is 1), although `M = 1` differs from the column count `N = 2`,
where the claim says the call fails. -/
theorem transpose_not_column_checked :
    transpose 1 (⟨[![1,2]]⟩ : Matrix ℤ 2) = .ok ⟨[![1],![2]]⟩ ∧ (1 : ℕ) ≠ 2 :=
  ⟨by decide, by decide⟩

/-- C3 (amended): `transpose` with target parameter `M` fails with
`DimensionMismatch` exactly when `M` differs from the source's *row* count;
on success the result has `N` rows of length `M` and
`result[i][j] = source[j][i]`. -/
theorem transpose_checks_rows (T : Type) [Inhabited T] (N M : ℕ) (m : Matrix T N) :
    (m.rows ≠ M →
      transpose M m =
        .error (.DimensionMismatch s!"Any x {M}" s!"{m.rows}x{N}" "Transpose")) ∧
    (m.rows = M →
      ∃ t : Matrix T M, transpose M m = .ok t ∧ t.rows = N ∧
        ∀ i j : ℕ, i < N → j < M → mget t i j = mget m j i) := by
  constructor
  · intro h
    simp [transpose, h]
  · intro h
    obtain ⟨htrows, hent⟩ := transpose_data_entry m h _ (transpose_ok M m h)
    refine ⟨_, transpose_ok M m h, htrows, ?_⟩
    intro i j hi hj
    rw [mget_lt _ i j hj, mget_lt _ j i hi]
    exact hent ⟨i, hi⟩ ⟨j, hj⟩

/-- C3 witness: a successful transpose of a `2×3` matrix with `M = 2`. -/
theorem transpose_checks_rows_witness :
    ∃ t : Matrix ℤ 2, transpose 2 (⟨[![1,2,3],![4,5,6]]⟩ : Matrix ℤ 3) = .ok t ∧
      t.rows = 3 ∧
      ∀ i j : ℕ, i < 3 → j < 2 →
        mget t i j = mget (⟨[![1,2,3],![4,5,6]]⟩ : Matrix ℤ 3) j i :=
  (transpose_checks_rows ℤ 3 2 ⟨[![1,2,3],![4,5,6]]⟩).2 (by decide)

/-- C7: transposing an `R×N` matrix with target `R` and transposing the
result with target `N` both succeed and restore the original matrix (and so
its `R×N` shape). -/
theorem transpose_roundtrip (T : Type) [Inhabited T] (N R : ℕ) (m : Matrix T N)
    (h : m.rows = R) :
    ∃ t : Matrix T R, transpose R m = .ok t ∧
      ∃ u : Matrix T N, transpose N t = .ok u ∧ u = m ∧ u.rows = R := by
  obtain ⟨t, hmt⟩ : ∃ t, transpose R m = .ok t := ⟨_, transpose_ok R m h⟩
  obtain ⟨htrows, htent⟩ := transpose_data_entry m h t hmt
  obtain ⟨u, htu⟩ : ∃ u, transpose N t = .ok u := ⟨_, transpose_ok N t htrows⟩
  obtain ⟨hurows, huent⟩ := transpose_data_entry t htrows u htu
  refine ⟨t, hmt, u, htu, ?_, hurows.trans h.symm ▸ hurows⟩
  apply matrix_ext_mrow
  · rw [hurows, h]
  · intro i hi
    have hiR : i < R := hurows ▸ hi
    funext j
    exact (huent ⟨i, hiR⟩ j).trans (htent j ⟨i, hiR⟩)

/-- C7 witness: round-trip on a concrete `2×3` matrix. -/
theorem transpose_roundtrip_witness :
    ∃ t : Matrix ℤ 2, transpose 2 (⟨[![1,2,3],![4,5,6]]⟩ : Matrix ℤ 3) = .ok t ∧
      ∃ u : Matrix ℤ 3, transpose 3 t = .ok u ∧ u = ⟨[![1,2,3],![4,5,6]]⟩ ∧ u.rows = 2 :=
  transpose_roundtrip ℤ 3 2 ⟨[![1,2,3],![4,5,6]]⟩ (by decide)

/-! ### C2 -/

/-- Pair equality componentwise, reducible for the same reason as
`instDecEqMatrix`. -/
instance instDecEqProdRed [DecidableEq A] [DecidableEq B] : DecidableEq (A × B) :=
  fun a b =>
  decidable_of_iff (a.1 = b.1 ∧ a.2 = b.2)
    ⟨fun h => by cases a; cases b; cases h.1; cases h.2; rfl,
      fun h => by cases h; exact ⟨rfl, rfl⟩⟩

/-- Sum equality by cases, reducible for the same reason as
`instDecEqMatrix`. -/
instance instDecEqSumRed [DecidableEq A] [DecidableEq B] : DecidableEq (A ⊕ B) :=
  fun a b =>
  match a, b with
  | .inl x, .inl y =>
      decidable_of_iff (x = y) ⟨fun h => by rw [h], fun h => by injection h⟩
  | .inl _, .inr _ => isFalse nofun
  | .inr _, .inl _ => isFalse nofun
  | .inr x, .inr y =>
      decidable_of_iff (x = y) ⟨fun h => by rw [h], fun h => by injection h⟩

/-- C2: over the binary64 model, the determinant of `[[1,2],[3,4]]` is
exactly `Ok (-2)` and the singular `[[1,2],[2,4]]` gives `Ok 0`, reached by
the early `return Ok(zero)` as soon as the selected pivot is exactly zero
(after the step `k = 0` the working state is `([[2,4],[1,0]], -2)`, and step
`k = 1` takes the zero-pivot early exit, the `.inr` branch); every matrix
whose row count differs from its column count `N` is rejected with
`DimensionMismatch`. -/
theorem determinant_f64_cases :
    determinant f64Ops (⟨[![1,2],![3,4]]⟩ : Matrix ℚ 2) = .ok (-2) ∧
    determinant f64Ops (⟨[![1,2],![2,4]]⟩ : Matrix ℚ 2) = .ok 0 ∧
    detStep f64Ops ((⟨[![1,2],![2,4]]⟩ : Matrix ℚ 2), 1) 0 =
      .inl ((⟨[![2,4],![1,0]]⟩ : Matrix ℚ 2), -2) ∧
    detStep f64Ops ((⟨[![2,4],![1,0]]⟩ : Matrix ℚ 2), -2) 1 = .inr 0 ∧
    ∀ (N : ℕ) (m : Matrix ℚ N), m.rows ≠ N →
      determinant f64Ops m =
        .error (.DimensionMismatch "Square Matrix" s!"{m.rows}x{N} matrix" "Determinant") := by
  refine ⟨by decide, by decide, by decide, by decide, ?_⟩
  intro N m h
  simp [determinant, h]

/-- C2 witness: a `1×2` matrix is rejected as non-square. -/
theorem determinant_f64_cases_witness :
    determinant f64Ops (⟨[![1,2]]⟩ : Matrix ℚ 2) =
      .error (.DimensionMismatch "Square Matrix" "1x2 matrix" "Determinant") :=
  determinant_f64_cases.2.2.2.2 2 ⟨[![1,2]]⟩ (by decide)

/-! ### C9 -/

/-- C9: in the binary64 model, the product of the `1×4` matrix
`[[1e16, 1, 1, -1e16]]` with the `4×1` matrix `[[1],[1],[-1],[1]]`, whose
cell is accumulated with Kahan-compensated summation, is exactly `[[0]]` —
in particular within `1e-6` of zero. -/
theorem kahan_matmul_cancellation :
    mat_mul_impl f64Ops (⟨[![1e16, 1, 1, -1e16]]⟩ : Matrix ℚ 4)
        (⟨[![1],![1],![-1],![1]]⟩ : Matrix ℚ 1) = .ok ⟨[![0]]⟩ ∧
    |mget (⟨[![(0:ℚ)]]⟩ : Matrix ℚ 1) 0 0| ≤ 1e-6 := by
  exact ⟨by decide, by decide⟩

/-! ### C4 : argmax tie-breaking

Rust's `Iterator::max_by` keeps the accumulator only when it compares
strictly greater, so among equal maxima the LAST element of the iterator
wins.  The three lemmas characterise the fold `maxByGo`: the result is one
of the elements, it is an upper bound, and every element listed after the
result (strictly larger enumeration position, assuming strictly increasing
positions) is strictly below it. -/

theorem maxByGo_cons {T α : Type} [LinearOrder T] (y : α × T) (t : List (α × T))
    (acc : α × T) :
    maxByGo (y :: t) acc = maxByGo t (if y.2 < acc.2 then acc else y) := rfl

theorem maxByGo_mem {T α : Type} [LinearOrder T] :
    ∀ (l : List (α × T)) (acc : α × T), maxByGo l acc ∈ acc :: l := by
  intro l
  induction l with
  | nil => intro acc; exact List.mem_singleton.mpr rfl
  | cons y t ih =>
      intro acc
      rw [maxByGo_cons]
      rcases List.mem_cons.mp (ih (if y.2 < acc.2 then acc else y)) with h | h
      · rw [h]
        by_cases hc : y.2 < acc.2 <;> simp [hc]
      · exact List.mem_cons_of_mem _ (List.mem_cons_of_mem _ h)

theorem maxByGo_le {T α : Type} [LinearOrder T] :
    ∀ (l : List (α × T)) (acc : α × T), ∀ z ∈ acc :: l, z.2 ≤ (maxByGo l acc).2 := by
  intro l
  induction l with
  | nil =>
      intro acc z hz
      rw [List.mem_singleton.mp hz]
      exact le_refl _
  | cons y t ih =>
      intro acc z hz
      rw [maxByGo_cons]
      have hacc : acc.2 ≤ (if y.2 < acc.2 then acc else y).2 := by
        by_cases hc : y.2 < acc.2 <;> simp [hc]
        exact le_of_not_lt hc
      have hy : y.2 ≤ (if y.2 < acc.2 then acc else y).2 := by
        by_cases hc : y.2 < acc.2 <;> simp [hc]
        exact le_of_lt hc
      have hub := ih (if y.2 < acc.2 then acc else y)
      rcases List.mem_cons.mp hz with rfl | hz2
      · exact hacc.trans (hub _ (List.mem_cons_self _ _))
      · rcases List.mem_cons.mp hz2 with rfl | hz3
        · exact hy.trans (hub _ (List.mem_cons_self _ _))
        · exact hub z (List.mem_cons_of_mem _ hz3)

theorem maxByGo_last {T α : Type} [LinearOrder T] (f : α → ℕ) :
    ∀ (l : List (α × T)) (acc : α × T),
      (acc :: l).Pairwise (fun a b => f a.1 < f b.1) →
      ∀ z ∈ l, f (maxByGo l acc).1 < f z.1 → z.2 < (maxByGo l acc).2 := by
  intro l
  induction l with
  | nil => intro acc _ z hz; exact absurd hz (List.not_mem_nil z)
  | cons y t ih =>
      intro acc hp z hz hlt
      rw [maxByGo_cons] at hlt ⊢
      have hpt : (y :: t).Pairwise (fun a b => f a.1 < f b.1) :=
        List.Pairwise.of_cons hp
      have hpacc : ∀ b ∈ y :: t, f acc.1 < f b.1 := (List.pairwise_cons.mp hp).1
      have hpy : ∀ b ∈ t, f y.1 < f b.1 := (List.pairwise_cons.mp hpt).1
      have hpacc' : ((if y.2 < acc.2 then acc else y) :: t).Pairwise
          (fun a b => f a.1 < f b.1) := by
        rw [List.pairwise_cons]
        refine ⟨?_, (List.pairwise_cons.mp hpt).2⟩
        intro b hb
        by_cases hc : y.2 < acc.2
        · rw [if_pos hc]; exact hpacc b (List.mem_cons_of_mem _ hb)
        · rw [if_neg hc]; exact hpy b hb
      rcases List.mem_cons.mp hz with rfl | hzt
      · rcases List.mem_cons.mp (maxByGo_mem t (if z.2 < acc.2 then acc else z))
          with hr | hr
        · rw [hr] at hlt ⊢
          by_cases hc : z.2 < acc.2
          · rw [if_pos hc]; exact hc
          · rw [if_neg hc] at hlt; exact absurd hlt (lt_irrefl _)
        · exact absurd hlt (not_lt.mpr (le_of_lt (hpy _ hr)))
      · exact ih (if y.2 < acc.2 then acc else y) hpacc' z hzt hlt

/-- The inner row scan of `argmax`: for a non-empty row it returns the pair
(index of the maximum, its value), the last index among equal maxima. -/
theorem rowArgmax_spec {T : Type} [LinearOrder T] [Inhabited T] {N : ℕ}
    (r : Vector T N) (hN : 0 < N) :
    ∃ a : Fin N, rowArgmax r = ((a : ℕ), r a) ∧ (∀ j, r j ≤ r a) ∧
      ∀ j : Fin N, (a : ℕ) < (j : ℕ) → r j < r a := by
  obtain ⟨x, xs, hxx⟩ :
      ∃ x xs, (List.finRange N).map (fun j => (j.val, r j)) = x :: xs := by
    cases hL : (List.finRange N).map (fun j => (j.val, r j)) with
    | nil =>
        exfalso
        have hlen := congrArg List.length hL
        simp at hlen
        omega
    | cons x xs => exact ⟨x, xs, rfl⟩
  have hrow : rowArgmax r = maxByGo xs x := by
    unfold rowArgmax
    rw [hxx]
  have hpair : (x :: xs).Pairwise (fun p q : ℕ × T => p.1 < q.1) := by
    rw [← hxx]
    exact List.Pairwise.map _ (fun _ _ h => h) (List.pairwise_lt_finRange N)
  have hmem : maxByGo xs x ∈ x :: xs := maxByGo_mem xs x
  have hmem' := hmem
  rw [← hxx] at hmem'
  obtain ⟨a, -, har⟩ := List.mem_map.mp hmem'
  refine ⟨a, by rw [hrow, ← har], ?_, ?_⟩
  · intro j
    have hj : (j.val, r j) ∈ x :: xs := by
      rw [← hxx]; exact List.mem_map_of_mem _ (List.mem_finRange j)
    have hle := maxByGo_le xs x _ hj
    rw [← har] at hle
    exact hle
  · intro j hj
    have hzmem : ((j.val, r j) : ℕ × T) ∈ x :: xs := by
      rw [← hxx]; exact List.mem_map_of_mem _ (List.mem_finRange j)
    have hR1 : (maxByGo xs x).1 = (a : ℕ) := by rw [← har]
    have hzxs : ((j.val, r j) : ℕ × T) ∈ xs := by
      rcases List.mem_cons.mp hzmem with hzx | h
      · exfalso
        rcases List.mem_cons.mp hmem with hr | hr
        · have : (j.val : ℕ) = (a : ℕ) := by
            rw [← hR1, hr, ← hzx]
          omega
        · have hx1 : x.1 < (maxByGo xs x).1 := (List.pairwise_cons.mp hpair).1 _ hr
          rw [hR1, ← hzx] at hx1
          omega
      · exact h
    have hlast := maxByGo_last (fun n => n) xs x hpair _ hzxs (by rw [hR1]; exact hj)
    rw [← har] at hlast
    exact hlast

/-- `Vector::argmax` is the index component of the row scan. -/
theorem vec_argmax_eq_rowArgmax {T : Type} [LinearOrder T] [Inhabited T] {N : ℕ}
    (v : Vector T N) : Vector.argmax v = (rowArgmax v).1 := by
  unfold Vector.argmax rowArgmax
  cases (List.finRange N).map (fun j => (j.val, v j)) with
  | nil => rfl
  | cons x xs => rfl

/-- `Matrix::argmax` for a non-empty matrix: the returned position holds a
maximum entry; later rows, and later columns within the returned row, are
strictly below it (the LAST occurrence wins every tie). -/
theorem matrix_argmax_spec {T : Type} [LinearOrder T] [Inhabited T] {N : ℕ}
    (m : Matrix T N) (hN : 0 < N) (hR : 0 < m.rows) :
    ∃ (i : ℕ) (j : Fin N), Matrix.argmax m = (i, (j : ℕ)) ∧ i < m.rows ∧
      (∀ (i' : ℕ) (j' : Fin N), i' < m.rows → mrow m i' j' ≤ mrow m i j) ∧
      (∀ (i' : ℕ) (j' : Fin N), i' < m.rows → i < i' → mrow m i' j' < mrow m i j) ∧
      (∀ j' : Fin N, (j : ℕ) < (j' : ℕ) → mrow m i j' < mrow m i j) := by
  obtain ⟨x, xs, hxx⟩ : ∃ x xs, (List.range m.rows).map
      (fun i => ((i, (rowArgmax (mrow m i)).1), (rowArgmax (mrow m i)).2)) = x :: xs := by
    cases hL : (List.range m.rows).map
        (fun i => ((i, (rowArgmax (mrow m i)).1), (rowArgmax (mrow m i)).2)) with
    | nil =>
        exfalso
        have hlen := congrArg List.length hL
        simp at hlen
        omega
    | cons x xs => exact ⟨x, xs, rfl⟩
  have hargeq : Matrix.argmax m = (maxByGo xs x).1 := by
    unfold Matrix.argmax
    rw [hxx]
  have hpair : (x :: xs).Pairwise (fun p q : (ℕ × ℕ) × T => p.1.1 < q.1.1) := by
    rw [← hxx]
    exact List.Pairwise.map _ (fun _ _ h => h) (List.pairwise_lt_range m.rows)
  have hmem : maxByGo xs x ∈ x :: xs := maxByGo_mem xs x
  have hmem' := hmem
  rw [← hxx] at hmem'
  obtain ⟨i0, hi0mem, hg0⟩ := List.mem_map.mp hmem'
  have hi0 : i0 < m.rows := List.mem_range.mp hi0mem
  obtain ⟨a, haeq, haub, halast⟩ := rowArgmax_spec (mrow m i0) hN
  have hg0' : (((i0, (a : ℕ)), mrow m i0 a) : (ℕ × ℕ) × T) = maxByGo xs x := by
    rw [← hg0, haeq]
  refine ⟨i0, a, ?_, hi0, ?_, ?_, ?_⟩
  · rw [hargeq, ← hg0']
  · intro i' j' hi'
    obtain ⟨a', haeq', haub', -⟩ := rowArgmax_spec (mrow m i') hN
    have hmem'' : (((i', (rowArgmax (mrow m i')).1), (rowArgmax (mrow m i')).2) :
        (ℕ × ℕ) × T) ∈ x :: xs := by
      rw [← hxx]
      exact List.mem_map_of_mem _ (List.mem_range.mpr hi')
    have hle := maxByGo_le xs x _ hmem''
    rw [← hg0'] at hle
    have : mrow m i' j' ≤ (rowArgmax (mrow m i')).2 := by
      rw [haeq']; exact haub' j'
    exact this.trans hle
  · intro i' j' hi' hgt
    obtain ⟨a', haeq', haub', -⟩ := rowArgmax_spec (mrow m i') hN
    have hz : (((i', (rowArgmax (mrow m i')).1), (rowArgmax (mrow m i')).2) :
        (ℕ × ℕ) × T) ∈ x :: xs := by
      rw [← hxx]
      exact List.mem_map_of_mem _ (List.mem_range.mpr hi')
    have hR1 : (maxByGo xs x).1.1 = i0 := by rw [← hg0']
    have hzxs : (((i', (rowArgmax (mrow m i')).1), (rowArgmax (mrow m i')).2) :
        (ℕ × ℕ) × T) ∈ xs := by
      rcases List.mem_cons.mp hz with hzx | h
      · exfalso
        rcases List.mem_cons.mp hmem with hr | hr
        · have : i0 = i' := by
            rw [← hR1, hr, ← hzx]
          omega
        · have hx1 : x.1.1 < (maxByGo xs x).1.1 := (List.pairwise_cons.mp hpair).1 _ hr
          rw [hR1, ← hzx] at hx1
          simp at hx1
          omega
      · exact h
    have hlast' := maxByGo_last (fun p : ℕ × ℕ => p.1) xs x hpair _ hzxs
      (by show (maxByGo xs x).1.1 < i'; rw [hR1]; exact hgt)
    rw [← hg0'] at hlast'
    have : mrow m i' j' ≤ (rowArgmax (mrow m i')).2 := by
      rw [haeq']; exact haub' j'
    exact lt_of_le_of_lt this hlast'
  · intro j' hj'
    exact halast j' hj'

/-- C4 counterexample: both entries of the integer vector `[5,5]` attain the
maximum, so first-occurrence tie-breaking would return index 0, but
`Vector::argmax` returns 1; likewise `Matrix::argmax` on `[[5,1],[2,5]]`
returns `(1,1)` although the maximum already occurs at `(0,0)` (Rust's
`max_by` keeps the last of equal maxima). -/
theorem argmax_first_occurrence_refuted :
    Vector.argmax (![5,5] : Vector ℤ 2) = 1 ∧
    (![5,5] : Vector ℤ 2) 0 = (![5,5] : Vector ℤ 2) 1 ∧
    (1 : ℕ) ≠ 0 ∧
    Matrix.argmax (⟨[![5,1],![2,5]]⟩ : Matrix ℤ 2) = (1, 1) ∧
    mget (⟨[![5,1],![2,5]]⟩ : Matrix ℤ 2) 0 0 = mget (⟨[![5,1],![2,5]]⟩ : Matrix ℤ 2) 1 1 ∧
    ((1, 1) : ℕ × ℕ) ≠ (0, 0) := by
  decide

/-- C4 (amended): for every non-empty vector, `argmax` returns the index of
the maximum element with ties broken by the LAST occurrence in iteration
order; for every non-empty matrix, `argmax` returns the (row, col) position
of the maximum with ties broken by the LAST occurrence scanning rows in
order, then columns within a row (NaN-free inputs assumed, modelled by the
linear order). -/
theorem argmax_ties_last_occurrence (T : Type) [LinearOrder T] [Inhabited T] (N : ℕ)
    (v : Vector T N) (m : Matrix T N) (hN : 0 < N) (hR : 0 < m.rows) :
    (∃ a : Fin N, Vector.argmax v = (a : ℕ) ∧ (∀ j, v j ≤ v a) ∧
      ∀ j : Fin N, (a : ℕ) < (j : ℕ) → v j < v a) ∧
    (∃ (i : ℕ) (j : Fin N), Matrix.argmax m = (i, (j : ℕ)) ∧ i < m.rows ∧
      (∀ (i' : ℕ) (j' : Fin N), i' < m.rows → mrow m i' j' ≤ mrow m i j) ∧
      (∀ (i' : ℕ) (j' : Fin N), i' < m.rows → i < i' → mrow m i' j' < mrow m i j) ∧
      (∀ j' : Fin N, (j : ℕ) < (j' : ℕ) → mrow m i j' < mrow m i j)) := by
  constructor
  · obtain ⟨a, h1, h2, h3⟩ := rowArgmax_spec v hN
    exact ⟨a, by rw [vec_argmax_eq_rowArgmax, h1], h2, h3⟩
  · exact matrix_argmax_spec m hN hR

/-- C4 witness: the spec's own reduction examples, `[1,-2,3,4,5]` (argmax 4)
and `[[1,-2,3],[4,5,-6]]` (argmax `(1,1)`), via the amended theorem. -/
theorem argmax_ties_last_occurrence_witness :
    (∃ a : Fin 5, Vector.argmax (![1,-2,3,4,5] : Vector ℤ 5) = (a : ℕ) ∧
      (∀ j, (![1,-2,3,4,5] : Vector ℤ 5) j ≤ ![1,-2,3,4,5] a) ∧
      ∀ j : Fin 5, (a : ℕ) < (j : ℕ) → (![1,-2,3,4,5] : Vector ℤ 5) j < ![1,-2,3,4,5] a) ∧
    (∃ (i : ℕ) (j : Fin 5), Matrix.argmax (⟨[![1,-2,3,4,5]]⟩ : Matrix ℤ 5) = (i, (j : ℕ)) ∧
      i < (⟨[![1,-2,3,4,5]]⟩ : Matrix ℤ 5).rows ∧
      (∀ (i' : ℕ) (j' : Fin 5), i' < (⟨[![1,-2,3,4,5]]⟩ : Matrix ℤ 5).rows →
        mrow (⟨[![1,-2,3,4,5]]⟩ : Matrix ℤ 5) i' j' ≤ mrow (⟨[![1,-2,3,4,5]]⟩ : Matrix ℤ 5) i j) ∧
      (∀ (i' : ℕ) (j' : Fin 5), i' < (⟨[![1,-2,3,4,5]]⟩ : Matrix ℤ 5).rows → i < i' →
        mrow (⟨[![1,-2,3,4,5]]⟩ : Matrix ℤ 5) i' j' < mrow (⟨[![1,-2,3,4,5]]⟩ : Matrix ℤ 5) i j) ∧
      (∀ j' : Fin 5, (j : ℕ) < (j' : ℕ) →
        mrow (⟨[![1,-2,3,4,5]]⟩ : Matrix ℤ 5) i j' < mrow (⟨[![1,-2,3,4,5]]⟩ : Matrix ℤ 5) i j)) :=
  argmax_ties_last_occurrence ℤ 5 ![1,-2,3,4,5] ⟨[![1,-2,3,4,5]]⟩ (by decide) (by decide)

end TensorLib
